import Mathlib

/-!
Verification of the quranalyze core pipeline: a shallow embedding of the
normalizer, Buckwalter transliterator, tokenizer, corpus build, word
filters, relation builder and word graph, with theorems settling the
specification's claims about them.

Python strings are modelled as lists of Unicode code points (`List Nat`);
`str.replace` with a single-character needle becomes `List.filter` /
`List.map`, `str.split` on the one-character default delimiter becomes a
structural split, and Python dict lookups become association-list lookups
with last-insertion-wins semantics. Fallible Python code (raising) is
modelled with `Except String`; interpolated values in error messages are
elided from the message text.
-/

namespace Quranalyze

/-- A Python string as its list of Unicode code points. -/
abbrev Str := List Nat

/-! ### normalizer.py (src/data/normalizer.py) -/

/-- Python `ARABIC_DIACRITICS`: the fifteen diacritic code points removed by
`remove_diacritics`. -/
def ARABIC_DIACRITICS : List Nat :=
  [0x64B, 0x64C, 0x64D, 0x64E, 0x64F, 0x650, 0x651, 0x652,
   0x653, 0x654, 0x655, 0x656, 0x657, 0x658, 0x670]

/-- Python `HAMZA_FORMS`: hamza-variant folding table, in source order. -/
def HAMZA_FORMS : List (Nat × Nat) :=
  [(0x623, 0x627), (0x625, 0x627), (0x622, 0x627), (0x624, 0x648), (0x626, 0x64A)]

/-- Python `ALEF_FORMS`: alef-variant folding table, in source order. -/
def ALEF_FORMS : List (Nat × Nat) :=
  [(0x623, 0x627), (0x625, 0x627), (0x622, 0x627), (0x671, 0x627)]

/-- Python `TAA_MARBUTA` (U+0629). -/
def TAA_MARBUTA : Nat := 0x629

/-- Python `TAA` — actually heh (U+0647), the fold target. -/
def TAA : Nat := 0x647

/-- Python `text.replace(old, "")` for a single code point `old`. -/
def replaceDrop (old : Nat) (t : Str) : Str :=
  t.filter (fun c => decide (c ≠ old))

/-- Python `text.replace(old, new)` for single code points. -/
def replaceTo (old new : Nat) (t : Str) : Str :=
  t.map (fun c => if c = old then new else c)

/-- Python `remove_diacritics`: successive `replace(d, "")` over `ARABIC_DIACRITICS`. -/
def remove_diacritics (t : Str) : Str :=
  ARABIC_DIACRITICS.foldl (fun s d => replaceDrop d s) t

/-- Python `normalize_hamza`: successive `replace` over `HAMZA_FORMS` items. -/
def normalize_hamza (t : Str) : Str :=
  HAMZA_FORMS.foldl (fun s p => replaceTo p.1 p.2 s) t

/-- Python `normalize_alef`: successive `replace` over `ALEF_FORMS` items. -/
def normalize_alef (t : Str) : Str :=
  ALEF_FORMS.foldl (fun s p => replaceTo p.1 p.2 s) t

/-- Python `normalize_taa_marbuta`: `text.replace(TAA_MARBUTA, TAA)`. -/
def normalize_taa_marbuta (t : Str) : Str :=
  replaceTo TAA_MARBUTA TAA t

/-- Python `normalize_text(text, *flags)`: the full pipeline, each stage gated by
its flag, applied in source order (diacritics, hamza, alef, taa marbuta),
with the `if not text: return text` early exit. -/
def normalize_text (t : Str) (rd nh na nt : Bool) : Str :=
  if t = [] then t
  else
    let t1 := if rd then remove_diacritics t else t
    let t2 := if nh then normalize_hamza t1 else t1
    let t3 := if na then normalize_alef t2 else t2
    if nt then normalize_taa_marbuta t3 else t3

/-- Python `normalize_text` with all four default flags (all `True`). -/
def normalizeDefault (t : Str) : Str :=
  normalize_text t true true true true

/-- The per-character effect of successively applying single-character
`replace` substitutions. -/
def applyPairs (ps : List (Nat × Nat)) (c : Nat) : Nat :=
  ps.foldl (fun x p => if x = p.1 then p.2 else x) c

/-- Per-character hamza folding. -/
def hamzaF (c : Nat) : Nat := applyPairs HAMZA_FORMS c

/-- Per-character alef folding. -/
def alefF (c : Nat) : Nat := applyPairs ALEF_FORMS c

/-- Per-character taa-marbuta folding. -/
def taaF (c : Nat) : Nat := if c = TAA_MARBUTA then TAA else c

/-- The per-character effect of the full default normalization pipeline on
a non-diacritic character. -/
def normChar (c : Nat) : Nat := taaF (alefF (hamzaF c))

/-! ### buckwalter.py (src/linguistics/buckwalter.py) -/

/-- Python `ARABIC_TO_BUCKWALTER_MAP`: the forward transliteration dict as an
association list in source (insertion) order; Buckwalter symbols are their
ASCII code points. -/
def ARABIC_TO_BUCKWALTER_MAP : List (Nat × Nat) :=
  [(0x621, 39),   -- Hamza -> apostrophe
   (0x622, 124),  -- Alef with madda -> vertical bar
   (0x623, 62),   -- Alef with hamza above -> greater-than
   (0x624, 38),   -- Waw with hamza -> ampersand
   (0x625, 60),   -- Alef with hamza below -> less-than
   (0x626, 125),  -- Yeh with hamza -> closing brace
   (0x627, 65),   -- Alef -> A
   (0x628, 98),   -- Beh -> b
   (0x629, 112),  -- Teh marbuta -> p
   (0x62A, 116),  -- Teh -> t
   (0x62B, 118),  -- Theh -> v
   (0x62C, 106),  -- Jeem -> j
   (0x62D, 72),   -- Hah -> H
   (0x62E, 120),  -- Khah -> x
   (0x62F, 100),  -- Dal -> d
   (0x630, 42),   -- Thal -> asterisk
   (0x631, 114),  -- Reh -> r
   (0x632, 122),  -- Zain -> z
   (0x633, 115),  -- Seen -> s
   (0x634, 36),   -- Sheen -> dollar
   (0x635, 83),   -- Sad -> S
   (0x636, 68),   -- Dad -> D
   (0x637, 84),   -- Tah -> T
   (0x638, 90),   -- Zah -> Z
   (0x639, 69),   -- Ain -> E
   (0x63A, 103),  -- Ghain -> g
   (0x640, 95),   -- Tatweel -> underscore
   (0x641, 102),  -- Feh -> f
   (0x642, 113),  -- Qaf -> q
   (0x643, 107),  -- Kaf -> k
   (0x644, 108),  -- Lam -> l
   (0x645, 109),  -- Meem -> m
   (0x646, 110),  -- Noon -> n
   (0x647, 104),  -- Heh -> h
   (0x648, 119),  -- Waw -> w
   (0x649, 89),   -- Alef maksura -> Y
   (0x64A, 121),  -- Yeh -> y
   (0x64B, 70),   -- Fathatan -> F
   (0x64C, 78),   -- Dammatan -> N
   (0x64D, 75),   -- Kasratan -> K
   (0x64E, 97),   -- Fatha -> a
   (0x64F, 117),  -- Damma -> u
   (0x650, 105),  -- Kasra -> i
   (0x651, 126),  -- Shadda -> tilde
   (0x652, 111),  -- Sukun -> o
   (0x653, 94),   -- Maddah -> caret
   (0x654, 35),   -- Hamza above -> hash
   (0x670, 96),   -- Superscript alef -> backtick
   (0x671, 123)]  -- Alef wasla -> opening brace

/-- Python dict lookup over an insertion-ordered association list: the
latest inserted binding for a key wins. -/
def dictFind (m : List (Nat × Nat)) (c : Nat) : Option Nat :=
  List.lookup c m.reverse

/-- Python `BUCKWALTER_TO_ARABIC_MAP`: the reverse dict, built by the
comprehension swapping every forward pair in insertion order. -/
def BUCKWALTER_TO_ARABIC_MAP : List (Nat × Nat) :=
  ARABIC_TO_BUCKWALTER_MAP.map (fun p => (p.2, p.1))

/-- Python `arabic_to_buckwalter`: per-character mapping with unmapped characters
kept as-is; empty input returned unchanged. -/
def arabic_to_buckwalter (t : Str) : Str :=
  if t = [] then t
  else t.map (fun c =>
    match dictFind ARABIC_TO_BUCKWALTER_MAP c with
    | some b => b
    | none => c)

/-- Python `buckwalter_to_arabic`: per-character mapping back, unmapped characters
kept as-is; empty input returned unchanged. -/
def buckwalter_to_arabic (t : Str) : Str :=
  if t = [] then t
  else t.map (fun c =>
    match dictFind BUCKWALTER_TO_ARABIC_MAP c with
    | some b => b
    | none => c)

/-! ### tokenizer.py (src/quranalyze/data/tokenizer.py) -/

/-- Python `BOUNDARY_CHARS`: the fixed boundary punctuation stripped from the two
ends of each raw token. -/
def BOUNDARY_CHARS : Str :=
  [33, 34, 35, 36, 37, 38, 39, 40, 41, 42, 43, 44, 45, 46, 47,
   58, 59, 60, 61, 62, 63, 64, 91, 92, 93, 94, 95, 96,
   123, 124, 125, 126, 1567, 1548]

/-- Python `WORD_DELIMITER` from config.py: a single space. -/
def WORD_DELIMITER : Nat := 32

/-- Python `text.split(sep)` for a one-character separator: empty pieces
are kept, and splitting the empty string yields one empty piece. -/
def splitOnChar (sep : Nat) : Str → List Str
  | [] => [[]]
  | c :: rest =>
    if c = sep then [] :: splitOnChar sep rest
    else
      match splitOnChar sep rest with
      | [] => [[c]]
      | p :: ps => (c :: p) :: ps

/-- Python `token.strip(chars)`: drop leading and trailing characters that
belong to `cs`. -/
def stripChars (cs : Str) (t : Str) : Str :=
  ((t.dropWhile (fun c => cs.contains c)).reverse.dropWhile
    (fun c => cs.contains c)).reverse

/-- Python `tokenize_ayah(ayah_text, delimiter)`: early-return `[]` on empty
input, split on the delimiter, strip boundary characters from each piece,
keep only the pieces that remain non-empty, in order (the source's
accumulating loop). -/
def tokenize_ayah (delim : Nat) (t : Str) : List Str :=
  if t = [] then []
  else
    (splitOnChar delim t).foldl
      (fun ws tok =>
        let w := stripChars BOUNDARY_CHARS tok
        if w ≠ [] then ws ++ [w] else ws)
      []

/-! ### word.py / ayah.py / surah.py (src/core, src/quranalyze/core) -/

/-- Python `Word`: the frozen word dataclass; scalar location fields are Python
ints (`Int`), text fields are code-point lists, root/lemma optional. -/
structure Word where
  surah_number : Int
  ayah_number : Int
  position : Int
  text : Str
  normalized : Str
  buckwalter : Str
  root : Option Str
  lemmaForm : Option Str  -- the source's `lemma` field (`lemma` is a Lean keyword)
deriving DecidableEq

/-- Python `Word.__post_init__` validation, as a fallible constructor (message
interpolation elided). -/
def mkWord (sn an pos : Int) (text normalized buckwalter : Str)
    (root lem : Option Str) : Except String Word :=
  if sn < 1 ∨ sn > 114 then .error "Invalid surah_number"
  else if an < 1 then .error "Invalid ayah_number"
  else if pos < 0 then .error "Invalid position"
  else if text = [] then .error "Word text cannot be empty"
  else if normalized = [] then .error "Normalized text cannot be empty"
  else if buckwalter = [] then .error "Buckwalter transliteration cannot be empty"
  else .ok ⟨sn, an, pos, text, normalized, buckwalter, root, lem⟩

/-- Python `Ayah`: the frozen verse dataclass. -/
structure Ayah where
  surah_number : Int
  ayah_number : Int
  text : Str
  number_in_quran : Option Int
deriving DecidableEq

/-- Python `Surah`: the frozen chapter dataclass. -/
structure Surah where
  number : Int
  name : Str
  ayahs : List Ayah
  english_name : Option Str
  revelation_type : Option Str
deriving DecidableEq

/-- Python `Surah.get_ayah`: linear scan returning the first ayah with the given
number, `None` otherwise. -/
def Surah.get_ayah (s : Surah) (n : Int) : Option Ayah :=
  s.ayahs.find? (fun a => decide (a.ayah_number = n))

/-! ### corpus.py (src/quranalyze/core/corpus.py) -/

/-- The mutable state of a `Corpus` instance: `_surahs` and `_words`,
both `None` before `build()`. -/
structure CorpusState where
  surahs : Option (List Surah)
  words : Option (List Word)
deriving DecidableEq

/-- The "not built" error message raised by the `surahs`/`words`
properties. -/
def notBuiltMsg : String := "Corpus not built. Call build() first."

namespace Corpus

/-- The `Corpus.surahs` property: raises when `_surahs is None`. -/
def surahsQ (st : CorpusState) : Except String (List Surah) :=
  match st.surahs with
  | none => .error notBuiltMsg
  | some ss => .ok ss

/-- The `Corpus.words` property: raises when `_words is None`. -/
def wordsQ (st : CorpusState) : Except String (List Word) :=
  match st.words with
  | none => .error notBuiltMsg
  | some ws => .ok ws

/-- Python `Corpus._process_ayah`: tokenize the ayah text, then for each token
(in enumeration order) build a `Word` with normalized and Buckwalter
forms and absent root/lemma; the first failing `Word` construction aborts. -/
def processAyah (a : Ayah) : Except String (List Word) :=
  (tokenize_ayah WORD_DELIMITER a.text).enum.mapM (fun pt =>
    mkWord a.surah_number a.ayah_number (Int.ofNat pt.1) pt.2
      (normalizeDefault pt.2) (arabic_to_buckwalter pt.2) none none)

/-- The word-list loop of `Corpus.build`: extend the accumulator with the
words of every ayah of every surah, aborting on the first failure. -/
def processAllAyahs (ss : List Surah) : Except String (List Word) :=
  ss.foldlM
    (fun ws s =>
      s.ayahs.foldlM
        (fun acc a => do
          let aws ← processAyah a
          pure (acc ++ aws))
        ws)
    []

/-- Python `Corpus.build`: the loader result is passed in (file I/O is outside
the model). Mirrors the source's assignment order: on successful load,
`_surahs` is assigned *before* the word loop runs; any failure is wrapped
into a "Failed to build corpus" error without rolling back assignments
already made. Returns the post-call state and the raised error, if any. -/
def build (st : CorpusState) (loadRes : Except String (List Surah)) :
    CorpusState × Option String :=
  match loadRes with
  | .error e => (st, some ("Failed to build corpus: " ++ e))
  | .ok ss =>
    match processAllAyahs ss with
    | .error e => ({ st with surahs := some ss },
        some ("Failed to build corpus: " ++ e))
    | .ok ws => ({ st with surahs := some ss, words := some ws }, none)

/-- Python `Corpus.get_surah`: scans `self.surahs` (which raises when unbuilt)
for the first surah with the given number, `None` otherwise. -/
def get_surah (st : CorpusState) (n : Int) : Except String (Option Surah) :=
  (surahsQ st).map (fun ss => ss.find? (fun s => decide (s.number = n)))

/-- Python `Corpus.filter_words`: a fresh filter over `self.words` (raises when
unbuilt). The filter is just its word list, see `WordFilter` below. -/
def filter_words (st : CorpusState) : Except String (List Word) :=
  wordsQ st

end Corpus

/-! ### filters.py (src/quranalyze/core/filters.py) -/

/-- Python `WordFilter`: a wrapper around its current word list. -/
structure WordFilter where
  words : List Word
deriving DecidableEq

namespace WordFilter

/-- Python `WordFilter.by_surah`: bound validation then a fresh filtered filter. -/
def by_surah (f : WordFilter) (sn : Int) : Except String WordFilter :=
  if sn < 1 ∨ sn > 114 then .error "Invalid surah number"
  else .ok ⟨f.words.filter (fun w => decide (w.surah_number = sn))⟩

/-- Python `WordFilter.by_ayah`: bound validation then a fresh filtered filter. -/
def by_ayah (f : WordFilter) (sn an : Int) : Except String WordFilter :=
  if sn < 1 ∨ sn > 114 then .error "Invalid surah number"
  else if an < 1 then .error "Invalid ayah number"
  else .ok ⟨f.words.filter
    (fun w => decide (w.surah_number = sn ∧ w.ayah_number = an))⟩

/-- Python `WordFilter.get`. -/
def get (f : WordFilter) : List Word := f.words

end WordFilter

/-! ### relations.py (src/quranalyze/core/relations.py) -/

/-- Python `WordRelation`: the frozen relation dataclass; weight is an exact
rational standing for the Python float (only the literals 1.0, 0.5, 0.8
occur). -/
structure WordRelation where
  word1 : Word
  word2 : Word
  relation_type : String
  weight : Rat
  metadata : Option (List (String × Str))
deriving DecidableEq

namespace WordRelation

/-- Python `WordRelation.involves_word`. -/
def involves_word (r : WordRelation) (w : Word) : Bool :=
  decide (r.word1 = w) || decide (r.word2 = w)

/-- Python `WordRelation.other_word`. -/
def other_word (r : WordRelation) (w : Word) : Option Word :=
  if r.word1 = w then some r.word2
  else if r.word2 = w then some r.word1
  else none

end WordRelation

/-- Python truthiness of `word.root`: a non-`None`, non-empty root. -/
def truthyRoot (w : Word) : Option Str :=
  match w.root with
  | some r => if r = [] then none else some r
  | none => none

/-- Insertion into the `root_groups` dict: append to the existing group of
the key, or append a new singleton group at the end (dict insertion
order). -/
def insertGroup (gs : List (Str × List Word)) (r : Str) (w : Word) :
    List (Str × List Word) :=
  match gs with
  | [] => [(r, [w])]
  | e :: rest =>
    if e.1 = r then (e.1, e.2 ++ [w]) :: rest
    else e :: insertGroup rest r w

/-- One iteration of the grouping loop of `build_root_relations`: a word
with a truthy root joins its root's group, any other word is skipped. -/
def groupStep (gs : List (Str × List Word)) (w : Word) : List (Str × List Word) :=
  match truthyRoot w with
  | some r => insertGroup gs r w
  | none => gs

/-- The grouping loop of `build_root_relations`: words with a truthy root
are grouped by root, preserving both key first-appearance order and
within-group word order. -/
def rootGroups (words : List Word) : List (Str × List Word) :=
  words.foldl groupStep []

/-- The ordered-pair enumeration of the nested loops
`for i, word1 in enumerate(group): for word2 in group[i+1:]`. -/
def pairs : List α → List (α × α)
  | [] => []
  | x :: xs => (xs.map (fun y => (x, y))) ++ pairs xs

/-- The relation `add_relation` appends for one pair of a shared-root
group. -/
def sharedRootRel (root : Str) (minWeight : Rat) (p : Word × Word) :
    WordRelation :=
  ⟨p.1, p.2, "shared_root", minWeight, some [("root", root)]⟩

/-- Python `RelationBuilder.build_root_relations`: appends, to the accumulated
relation list `prev`, one `shared_root` relation per ordered pair `(i, j)`
with `i < j` inside every root group, in group order. -/
def build_root_relations (prev : List WordRelation) (words : List Word)
    (minWeight : Rat) : List WordRelation :=
  prev ++
    ((rootGroups words).map
      (fun rg => (pairs rg.2).map (sharedRootRel rg.1 minWeight))).flatten

/-! ### graph_builder.py (src/quranalyze/graph/graph_builder.py) -/

/-- One entry of `WordGraph.edges`: `(word1, word2, weight, relation_type)`. -/
abbrev Edge := Word × Word × Rat × String

/-- Python `WordGraph`: `nodes` is the insertion-ordered key list of the node
dict (node attribute values, typed `Any` in the source, are not
modelled); `edges` is the edge list. -/
structure WordGraph where
  nodes : List Word
  edges : List Edge
deriving DecidableEq

namespace WordGraph

/-- The empty graph of `WordGraph.__init__`. -/
def empty : WordGraph := ⟨[], []⟩

/-- Python `WordGraph.add_node`: insert the key only if absent. -/
def add_node (g : WordGraph) (w : Word) : WordGraph :=
  if w ∈ g.nodes then g else { g with nodes := g.nodes ++ [w] }

/-- Python `WordGraph.add_edge`: ensure both endpoint nodes exist, then append
the edge. -/
def add_edge (g : WordGraph) (w1 w2 : Word) (weight : Rat) (rt : String) :
    WordGraph :=
  let g1 := (g.add_node w1).add_node w2
  { g1 with edges := g1.edges ++ [(w1, w2, weight, rt)] }

/-- Python `WordGraph.node_count`. -/
def node_count (g : WordGraph) : Nat := g.nodes.length

/-- Python `WordGraph.edge_count`. -/
def edge_count (g : WordGraph) : Nat := g.edges.length

/-- Python `WordGraph.subgraph`: re-add the given words that are nodes of `g`
(attributes carried over in the source), then re-add every edge of `g`
whose two endpoints are both in the given word set. -/
def subgraph (g : WordGraph) (words : List Word) : WordGraph :=
  let withNodes :=
    words.foldl (fun sg w => if w ∈ g.nodes then sg.add_node w else sg) empty
  g.edges.foldl
    (fun sg e =>
      if e.1 ∈ words ∧ e.2.1 ∈ words then sg.add_edge e.1 e.2.1 e.2.2.1 e.2.2.2
      else sg)
    withNodes

end WordGraph

/-- Python `GraphBuilder.build_from_relations`: a fresh graph with one
`add_edge` call per input relation, in order. -/
def build_from_relations (relations : List WordRelation) : WordGraph :=
  relations.foldl
    (fun g r => g.add_edge r.word1 r.word2 r.weight r.relation_type)
    WordGraph.empty

/-- The edge tuple `build_from_relations` appends for one relation. -/
def relEdge (r : WordRelation) : Edge :=
  (r.word1, r.word2, r.weight, r.relation_type)

/-! ### Concrete sample values used by witnesses and counterexamples -/

/-- A sample word (surah 1, ayah 1, position 0) with root `ktb`. -/
def cwA : Word := ⟨1, 1, 0, [1576], [1576], [98], some [107, 116, 98], none⟩

/-- A second sample word with the same root. -/
def cwB : Word := ⟨1, 1, 1, [1587], [1587], [115], some [107, 116, 98], none⟩

/-- A third sample word, in another ayah, same root. -/
def cwC : Word := ⟨1, 2, 0, [1605], [1605], [109], some [107, 116, 98], none⟩

/-- A sample word outside surah 1 with no root. -/
def cwD : Word := ⟨2, 1, 0, [1575], [1575], [65], none, none⟩

/-- A sample relation between `cwA` and `cwB`. -/
def wRelAB : WordRelation := ⟨cwA, cwB, "shared_root", 1, none⟩

/-- An ayah whose single token is one bare diacritic (U+064B), so that
normalization empties it and `Word` construction fails during build. -/
def cexAyah : Ayah := ⟨1, 1, [0x64B], none⟩

/-- A surah containing only `cexAyah`. -/
def cexSurah : Surah := ⟨1, [1601], [cexAyah], none, none⟩

/-! ### Theorems -/

/-- The accumulating loop of `tokenize_ayah` equals mapping the strip over
the pieces and keeping the non-empty results. -/
theorem foldl_collect (f : Str → Str) (toks acc : List Str) :
    toks.foldl
      (fun ws tok =>
        let w := f tok
        if w ≠ [] then ws ++ [w] else ws)
      acc
      = acc ++ (toks.map f).filter (fun w => decide (w ≠ [])) := by
  induction toks generalizing acc with
  | nil => simp
  | cons t ts ih =>
    rw [List.foldl_cons]
    by_cases h : f t = []
    · have hstep :
          (let w := f t
           if w ≠ [] then acc ++ [w] else acc) = acc := by
        simp [h]
      rw [hstep, ih, List.map_cons, List.filter_cons]
      simp [h]
    · have hstep :
          (let w := f t
           if w ≠ [] then acc ++ [w] else acc) = acc ++ [f t] := by
        simp [h]
      rw [hstep, ih, List.map_cons, List.filter_cons]
      simp [h]

/-- C7: tokenizing the empty string yields the empty list; for every text
and (single-code-point) delimiter, `tokenize_ayah` is: split on the
delimiter, strip the fixed boundary set from both ends of each piece, and
keep the surviving non-empty tokens in source order; every emitted token
is non-empty; and tokenizing the bismillah phrase with the default
delimiter yields its two words in original order. -/
theorem claim_C7 :
    (∀ delim t, tokenize_ayah delim t =
        ((splitOnChar delim t).map (stripChars BOUNDARY_CHARS)).filter
          (fun w => decide (w ≠ []))) ∧
    tokenize_ayah WORD_DELIMITER [] = [] ∧
    (∀ delim t w, w ∈ tokenize_ayah delim t → w ≠ []) ∧
    tokenize_ayah WORD_DELIMITER
        [1576, 1616, 1587, 1618, 1605, 1616, 32, 1575, 1604, 1604, 1617, 1614, 1607, 1616]
      = [[1576, 1616, 1587, 1618, 1605, 1616], [1575, 1604, 1604, 1617, 1614, 1607, 1616]] := by
  have hchar : ∀ delim t, tokenize_ayah delim t =
      ((splitOnChar delim t).map (stripChars BOUNDARY_CHARS)).filter
        (fun w => decide (w ≠ [])) := by
    intro d t
    by_cases h : t = []
    · subst h; rfl
    · simp only [tokenize_ayah, if_neg h]
      rw [foldl_collect]
      simp
  refine ⟨hchar, rfl, ?_, by decide⟩
  intro d t w hw
  rw [hchar] at hw
  have := List.of_mem_filter hw
  simpa using this

/-- C7 witness: the first bismillah token is one of the emitted tokens and
is non-empty. -/
theorem claim_C7_witness : ([1576, 1616, 1587, 1618, 1605, 1616] : Str) ≠ [] :=
  claim_C7.2.2.1 WORD_DELIMITER
    [1576, 1616, 1587, 1618, 1605, 1616, 32, 1575, 1604, 1604, 1617, 1614, 1607, 1616]
    [1576, 1616, 1587, 1618, 1605, 1616] (by decide)

/-- C4: for every Arabic character in the forward Buckwalter table,
transliterating it and mapping back through the reverse table returns the
original character. -/
theorem claim_C4 :
    ∀ p ∈ ARABIC_TO_BUCKWALTER_MAP,
      buckwalter_to_arabic (arabic_to_buckwalter [p.1]) = [p.1] := by
  decide

/-- C4 witness: the round trip at beh (U+0628). -/
theorem claim_C4_witness : buckwalter_to_arabic (arabic_to_buckwalter [0x628]) = [0x628] :=
  claim_C4 (0x628, 98) (by decide)

/-- C9: `involves_word` is true exactly when the queried word equals
either member, and `other_word` returns the opposite member when the
queried word equals a member and `none` (rather than failing) otherwise. -/
theorem claim_C9 (r : WordRelation) (w : Word) :
    (r.involves_word w = true ↔ (w = r.word1 ∨ w = r.word2)) ∧
    (w = r.word1 → r.other_word w = some r.word2) ∧
    (w = r.word2 → w ≠ r.word1 → r.other_word w = some r.word1) ∧
    (w ≠ r.word1 → w ≠ r.word2 → r.other_word w = none) := by
  unfold WordRelation.involves_word WordRelation.other_word
  refine ⟨?_, ?_, ?_, ?_⟩
  · constructor
    · intro h
      rcases Bool.or_eq_true_iff.mp h with h1 | h1
      · exact Or.inl (of_decide_eq_true h1).symm
      · exact Or.inr (of_decide_eq_true h1).symm
    · rintro (h | h) <;> subst h <;> simp
  · intro h; subst h; simp
  · intro h2 h1
    rw [if_neg (fun he => h1 he.symm), if_pos h2.symm]
  · intro h1 h2
    rw [if_neg (fun he => h1 he.symm), if_neg (fun he => h2 he.symm)]

/-- C9 witness: on the concrete relation `wRelAB`, querying with `cwA`
returns `cwB`, and querying with the unrelated `cwD` returns `none`. -/
theorem claim_C9_witness :
    wRelAB.other_word cwA = some wRelAB.word2 ∧ wRelAB.other_word cwD = none :=
  ⟨(claim_C9 wRelAB cwA).2.1 rfl,
   (claim_C9 wRelAB cwD).2.2.2 (by decide) (by decide)⟩

/-- Two nested word-list filters on surah and (surah, ayah) commute and
both collapse to the conjunction filter. -/
theorem filter_surah_ayah_comm (ws : List Word) :
    ((ws.filter (fun w => decide (w.surah_number = 1))).filter
        (fun w => decide (w.surah_number = 1 ∧ w.ayah_number = 1))
      = ws.filter (fun w => decide (w.surah_number = 1 ∧ w.ayah_number = 1))) ∧
    ((ws.filter (fun w => decide (w.surah_number = 1 ∧ w.ayah_number = 1))).filter
        (fun w => decide (w.surah_number = 1))
      = ws.filter (fun w => decide (w.surah_number = 1 ∧ w.ayah_number = 1))) := by
  constructor
  · rw [List.filter_filter]
    apply List.filter_congr
    intro w _
    by_cases h1 : w.surah_number = 1 <;> by_cases h2 : w.ayah_number = 1 <;>
      simp [h1, h2]
  · rw [List.filter_filter]
    apply List.filter_congr
    intro w _
    by_cases h1 : w.surah_number = 1 <;> by_cases h2 : w.ayah_number = 1 <;>
      simp [h1, h2]

/-- C8: for every starting word list, `by_surah(1)` then `by_ayah(1,1)`
yields the same filter (same words, same order) as `by_ayah(1,1)` then
`by_surah(1)`; both validations pass and both chains produce the
conjunction filter. -/
theorem claim_C8 (ws : List Word) :
    (((WordFilter.mk ws).by_surah 1).bind (fun f => f.by_ayah 1 1)
      = ((WordFilter.mk ws).by_ayah 1 1).bind (fun f => f.by_surah 1)) ∧
    ((WordFilter.mk ws).by_surah 1).bind (fun f => f.by_ayah 1 1)
      = .ok ⟨ws.filter (fun w => decide (w.surah_number = 1 ∧ w.ayah_number = 1))⟩ := by
  have hv1 : ¬((1 : Int) < 1 ∨ (1 : Int) > 114) := by decide
  have hv2 : ¬((1 : Int) < 1) := by decide
  simp only [WordFilter.by_surah, WordFilter.by_ayah, if_neg hv1, if_neg hv2,
    Except.bind]
  rw [(filter_surah_ayah_comm ws).1, (filter_surah_ayah_comm ws).2]
  exact ⟨rfl, rfl⟩

/-- Python `add_node` never touches the edge list. -/
theorem add_node_edges (g : WordGraph) (w : Word) :
    (g.add_node w).edges = g.edges := by
  unfold WordGraph.add_node
  split <;> rfl

/-- Python `add_edge` appends exactly its edge tuple. -/
theorem add_edge_edges (g : WordGraph) (w1 w2 : Word) (wt : Rat) (rt : String) :
    (g.add_edge w1 w2 wt rt).edges = g.edges ++ [(w1, w2, wt, rt)] := by
  unfold WordGraph.add_edge
  simp [add_node_edges]

/-- Node membership after `add_node`. -/
theorem mem_add_node_nodes (g : WordGraph) (w x : Word) :
    x ∈ (g.add_node w).nodes ↔ x ∈ g.nodes ∨ x = w := by
  unfold WordGraph.add_node
  split
  next h =>
    constructor
    · exact Or.inl
    · rintro (hx | rfl) <;> [exact hx; exact h]
  next h =>
    simp [List.mem_append]

/-- Python `add_node` grows the node list by at most one. -/
theorem add_node_nodes_length (g : WordGraph) (w : Word) :
    (g.add_node w).nodes.length ≤ g.nodes.length + 1 := by
  unfold WordGraph.add_node
  split <;> simp

/-- Node membership after `add_edge`. -/
theorem mem_add_edge_nodes (g : WordGraph) (w1 w2 x : Word) (wt : Rat) (rt : String) :
    x ∈ (g.add_edge w1 w2 wt rt).nodes ↔ x ∈ g.nodes ∨ x = w1 ∨ x = w2 := by
  unfold WordGraph.add_edge
  show x ∈ ((g.add_node w1).add_node w2).nodes ↔ _
  rw [mem_add_node_nodes, mem_add_node_nodes]
  tauto

/-- Python `add_edge` grows the node list by at most two. -/
theorem add_edge_nodes_length (g : WordGraph) (w1 w2 : Word) (wt : Rat) (rt : String) :
    (g.add_edge w1 w2 wt rt).nodes.length ≤ g.nodes.length + 2 := by
  unfold WordGraph.add_edge
  show ((g.add_node w1).add_node w2).nodes.length ≤ _
  calc ((g.add_node w1).add_node w2).nodes.length
      ≤ (g.add_node w1).nodes.length + 1 := add_node_nodes_length _ _
    _ ≤ g.nodes.length + 1 + 1 := by
        have := add_node_nodes_length g w1
        omega
    _ = g.nodes.length + 2 := by omega

/-- The edge list accumulated by the `build_from_relations` loop. -/
theorem bfr_foldl_edges (rels : List WordRelation) (g : WordGraph) :
    (rels.foldl (fun g r => g.add_edge r.word1 r.word2 r.weight r.relation_type)
        g).edges
      = g.edges ++ rels.map relEdge := by
  induction rels generalizing g with
  | nil => simp
  | cons r rs ih =>
    rw [List.foldl_cons, ih, add_edge_edges]
    simp [relEdge]

/-- Node membership accumulated by the `build_from_relations` loop. -/
theorem bfr_foldl_nodes_mem (rels : List WordRelation) (g : WordGraph) (x : Word) :
    x ∈ (rels.foldl (fun g r => g.add_edge r.word1 r.word2 r.weight r.relation_type)
        g).nodes
      ↔ x ∈ g.nodes ∨ ∃ r ∈ rels, x = r.word1 ∨ x = r.word2 := by
  induction rels generalizing g with
  | nil => simp
  | cons r rs ih =>
    rw [List.foldl_cons, ih, mem_add_edge_nodes]
    simp only [List.mem_cons]
    constructor
    · rintro ((hg | h1 | h2) | ⟨r0, hr0, h⟩)
      · exact Or.inl hg
      · exact Or.inr ⟨r, Or.inl rfl, Or.inl h1⟩
      · exact Or.inr ⟨r, Or.inl rfl, Or.inr h2⟩
      · exact Or.inr ⟨r0, Or.inr hr0, h⟩
    · rintro (hg | ⟨r0, (rfl | hr0), h⟩)
      · exact Or.inl (Or.inl hg)
      · exact Or.inl (Or.inr h)
      · exact Or.inr ⟨r0, hr0, h⟩

/-- Node-count bound accumulated by the `build_from_relations` loop. -/
theorem bfr_foldl_nodes_length (rels : List WordRelation) (g : WordGraph) :
    (rels.foldl (fun g r => g.add_edge r.word1 r.word2 r.weight r.relation_type)
        g).nodes.length
      ≤ g.nodes.length + 2 * rels.length := by
  induction rels generalizing g with
  | nil => simp
  | cons r rs ih =>
    rw [List.foldl_cons]
    have h1 := ih (g.add_edge r.word1 r.word2 r.weight r.relation_type)
    have h2 := add_edge_nodes_length g r.word1 r.word2 r.weight r.relation_type
    simp only [List.length_cons]
    omega

/-- C5: `build_from_relations` on the empty list yields zero nodes and
zero edges; on any relation list it yields exactly one edge per relation,
in order, never merged, and its node set is exactly the set of endpoint
words, hence at most `2k` nodes for `k` relations. -/
theorem claim_C5 :
    (build_from_relations []).node_count = 0 ∧
    (build_from_relations []).edge_count = 0 ∧
    ∀ rels : List WordRelation,
      (build_from_relations rels).edges = rels.map relEdge ∧
      (build_from_relations rels).edge_count = rels.length ∧
      (∀ x : Word, x ∈ (build_from_relations rels).nodes ↔
        ∃ r ∈ rels, x = r.word1 ∨ x = r.word2) ∧
      (build_from_relations rels).node_count ≤ 2 * rels.length := by
  refine ⟨rfl, rfl, fun rels => ⟨?_, ?_, ?_, ?_⟩⟩
  · rw [build_from_relations, bfr_foldl_edges]
    rfl
  · show (build_from_relations rels).edges.length = _
    rw [build_from_relations, bfr_foldl_edges]
    simp [WordGraph.empty]
  · intro x
    rw [build_from_relations, bfr_foldl_nodes_mem]
    simp [WordGraph.empty]
  · show (build_from_relations rels).nodes.length ≤ _
    rw [build_from_relations]
    have := bfr_foldl_nodes_length rels WordGraph.empty
    simpa [WordGraph.empty] using this

/-- The node-collecting loop of `subgraph` never adds edges. -/
theorem subgraph_node_foldl_edges (g : WordGraph) (ws : List Word) (sg : WordGraph) :
    (ws.foldl (fun sg w => if w ∈ g.nodes then sg.add_node w else sg) sg).edges
      = sg.edges := by
  induction ws generalizing sg with
  | nil => rfl
  | cons w ws ih =>
    rw [List.foldl_cons, ih]
    split <;> simp [add_node_edges]

/-- The edge-collecting loop of `subgraph` keeps exactly the edges with
both endpoints in the word set, in order. -/
theorem subgraph_edge_foldl_edges (S : List Word) (es : List Edge) (sg : WordGraph) :
    (es.foldl
        (fun sg e =>
          if e.1 ∈ S ∧ e.2.1 ∈ S then sg.add_edge e.1 e.2.1 e.2.2.1 e.2.2.2
          else sg)
        sg).edges
      = sg.edges ++ es.filter (fun e => decide (e.1 ∈ S ∧ e.2.1 ∈ S)) := by
  induction es generalizing sg with
  | nil => simp
  | cons e es ih =>
    rw [List.foldl_cons]
    by_cases h : e.1 ∈ S ∧ e.2.1 ∈ S
    · rw [if_pos h, ih, add_edge_edges, List.filter_cons]
      simp [h]
    · rw [if_neg h, ih, List.filter_cons]
      simp [h]

/-- C6: `subgraph` yields the induced subgraph on the edge level: an edge
belongs to `G.subgraph(S)` exactly when it is an edge of `G` with both
endpoints in `S`, so no qualifying edge is omitted and no other edge
appears. -/
theorem claim_C6 (g : WordGraph) (S : List Word) (e : Edge) :
    e ∈ (g.subgraph S).edges ↔ e ∈ g.edges ∧ e.1 ∈ S ∧ e.2.1 ∈ S := by
  unfold WordGraph.subgraph
  rw [subgraph_edge_foldl_edges, subgraph_node_foldl_edges]
  simp [WordGraph.empty, List.mem_filter]

/-- First-match characterization of `List.find?`: it returns `none`
exactly when no element matches, and a returned element matches, occurs at
some index, and is preceded only by non-matching elements. -/
theorem find?_characterization (p : α → Bool) (l : List α) :
    (l.find? p = none ↔ ∀ x ∈ l, p x = false) ∧
    (∀ x, l.find? p = some x → p x = true ∧
      ∃ i, ∃ hi : i < l.length, l.get ⟨i, hi⟩ = x ∧ ∀ y ∈ l.take i, p y = false) := by
  induction l with
  | nil => simp
  | cons a l ih =>
    by_cases h : p a = true
    · rw [List.find?_cons_of_pos _ h]
      constructor
      · simp [h]
      · intro x hx
        injection hx with hx
        subst hx
        exact ⟨h, 0, by simp, rfl, by simp⟩
    · have hf : p a = false := by
        cases hpa : p a
        · rfl
        · exact absurd hpa h
      rw [List.find?_cons_of_neg _ h]
      constructor
      · rw [ih.1]
        simp [hf]
      · intro x hx
        obtain ⟨hp, i, hi, hget, htake⟩ := ih.2 x hx
        refine ⟨hp, i + 1, by simpa using Nat.succ_lt_succ hi, hget, ?_⟩
        intro y hy
        rw [List.take_succ_cons] at hy
        rcases List.mem_cons.mp hy with rfl | hy
        · exact hf
        · exact htake y hy

/-- C10: on a built corpus, `get_surah` returns the first surah with the
requested number and an explicit `none` inside a successful result when no
surah matches; `Surah.get_ayah` likewise returns the first matching ayah
or `none`. -/
theorem claim_C10 (st : CorpusState) (ss : List Surah)
    (hb : st.surahs = some ss) (n : Int) :
    (Corpus.get_surah st n = .ok (ss.find? (fun s => decide (s.number = n)))) ∧
    (ss.find? (fun s => decide (s.number = n)) = none ↔ ∀ s ∈ ss, s.number ≠ n) ∧
    (∀ s, ss.find? (fun s0 => decide (s0.number = n)) = some s →
      s.number = n ∧ ∃ i, ∃ hi : i < ss.length, ss.get ⟨i, hi⟩ = s ∧
        ∀ s0 ∈ ss.take i, s0.number ≠ n) ∧
    (∀ su : Surah, ∀ m : Int,
      (su.get_ayah m = none ↔ ∀ a ∈ su.ayahs, a.ayah_number ≠ m) ∧
      (∀ a, su.get_ayah m = some a → a.ayah_number = m ∧
        ∃ i, ∃ hi : i < su.ayahs.length, su.ayahs.get ⟨i, hi⟩ = a ∧
          ∀ a0 ∈ su.ayahs.take i, a0.ayah_number ≠ m)) := by
  refine ⟨?_, ?_, ?_, ?_⟩
  · unfold Corpus.get_surah Corpus.surahsQ
    rw [hb]
    rfl
  · rw [(find?_characterization _ ss).1]
    constructor
    · intro h s hs
      exact of_decide_eq_false (h s hs)
    · intro h s hs
      exact decide_eq_false (h s hs)
  · intro s hs
    obtain ⟨hp, i, hi, hget, htake⟩ := (find?_characterization _ ss).2 s hs
    exact ⟨of_decide_eq_true hp, i, hi, hget,
      fun s0 h0 => of_decide_eq_false (htake s0 h0)⟩
  · intro su m
    unfold Surah.get_ayah
    constructor
    · rw [(find?_characterization _ su.ayahs).1]
      constructor
      · intro h a ha
        exact of_decide_eq_false (h a ha)
      · intro h a ha
        exact decide_eq_false (h a ha)
    · intro a ha
      obtain ⟨hp, i, hi, hget, htake⟩ := (find?_characterization _ su.ayahs).2 a ha
      exact ⟨of_decide_eq_true hp, i, hi, hget,
        fun a0 h0 => of_decide_eq_false (htake a0 h0)⟩

/-- C10 witness: on a concretely built corpus holding only `cexSurah`,
`get_surah 1` returns that first match. -/
theorem claim_C10_witness :
    Corpus.get_surah ⟨some [cexSurah], some []⟩ 1
      = .ok ([cexSurah].find? (fun s => decide (s.number = 1))) :=
  (claim_C10 ⟨some [cexSurah], some []⟩ [cexSurah] rfl 1).1

/-- Mapping a function that fixes all elements of a list is the identity. -/
theorem map_fixed (l : List Nat) (f : Nat → Nat) (h : ∀ x ∈ l, f x = x) :
    l.map f = l := by
  induction l with
  | nil => rfl
  | cons a l ih =>
    rw [List.map_cons, h a (List.mem_cons_self a l),
      ih (fun x hx => h x (List.mem_cons_of_mem a hx))]

/-- Successive single-character deletions equal one filter against the
whole deletion set. -/
theorem foldl_replaceDrop (ds : List Nat) (t : Str) :
    ds.foldl (fun s d => replaceDrop d s) t
      = t.filter (fun c => decide (c ∉ ds)) := by
  induction ds generalizing t with
  | nil => simp
  | cons d ds ih =>
    rw [List.foldl_cons, ih]
    show (t.filter (fun c => decide (c ≠ d))).filter (fun c => decide (c ∉ ds)) = _
    rw [List.filter_filter]
    apply List.filter_congr
    intro a _
    by_cases h1 : a = d <;> by_cases h2 : a ∈ ds <;> simp [h1, h2]

/-- Successive single-character substitutions equal one map of the
composed per-character function. -/
theorem foldl_replaceTo (ps : List (Nat × Nat)) (t : Str) :
    ps.foldl (fun s p => replaceTo p.1 p.2 s) t = t.map (applyPairs ps) := by
  induction ps generalizing t with
  | nil =>
    rw [List.foldl_nil]
    exact (map_fixed t _ (fun x _ => rfl)).symm
  | cons p ps ih =>
    rw [List.foldl_cons, ih]
    show (t.map fun c => if c = p.1 then p.2 else c).map (applyPairs ps) = _
    rw [List.map_map]
    rfl

/-- Python `remove_diacritics` is the filter against the diacritic set. -/
theorem remove_diacritics_eq (t : Str) :
    remove_diacritics t = t.filter (fun c => decide (c ∉ ARABIC_DIACRITICS)) :=
  foldl_replaceDrop ARABIC_DIACRITICS t

/-- Python `normalize_hamza` is the per-character hamza fold. -/
theorem normalize_hamza_eq (t : Str) : normalize_hamza t = t.map hamzaF :=
  foldl_replaceTo HAMZA_FORMS t

/-- Python `normalize_alef` is the per-character alef fold. -/
theorem normalize_alef_eq (t : Str) : normalize_alef t = t.map alefF :=
  foldl_replaceTo ALEF_FORMS t

/-- Python `normalize_taa_marbuta` is the per-character taa-marbuta fold. -/
theorem normalize_taa_marbuta_eq (t : Str) :
    normalize_taa_marbuta t = t.map taaF :=
  rfl

/-- The default normalization pipeline is the diacritic filter followed by
the composed per-character fold. -/
theorem normalizeDefault_eq (t : Str) :
    normalizeDefault t
      = (t.filter (fun c => decide (c ∉ ARABIC_DIACRITICS))).map normChar := by
  by_cases h : t = []
  · subst h; rfl
  · have h1 : normalizeDefault t
        = normalize_taa_marbuta (normalize_alef (normalize_hamza
            (remove_diacritics t))) := by
      unfold normalizeDefault normalize_text
      rw [if_neg h]
      rfl
    rw [h1, remove_diacritics_eq, normalize_hamza_eq, normalize_alef_eq,
      normalize_taa_marbuta_eq, List.map_map, List.map_map]
    apply List.map_congr_left
    intro a _
    simp [normChar]

/-- A character that is none of the seven folded letters is fixed by the
per-character pipeline. -/
theorem normChar_eq_of_ne (c : Nat)
    (h1 : c ≠ 0x622) (h2 : c ≠ 0x623) (h3 : c ≠ 0x624) (h4 : c ≠ 0x625)
    (h5 : c ≠ 0x626) (h6 : c ≠ 0x629) (h7 : c ≠ 0x671) :
    normChar c = c := by
  unfold normChar hamzaF alefF taaF applyPairs HAMZA_FORMS ALEF_FORMS TAA_MARBUTA
  simp only [List.foldl_cons, List.foldl_nil]
  rw [if_neg h2, if_neg h4, if_neg h1, if_neg h3, if_neg h5,
    if_neg h2, if_neg h4, if_neg h1, if_neg h7, if_neg h6]

/-- Every output character of the per-character pipeline applied to a
non-diacritic input is itself non-diacritic and fixed by the pipeline. -/
theorem normChar_fixed (c : Nat) (hc : c ∉ ARABIC_DIACRITICS) :
    normChar c ∉ ARABIC_DIACRITICS ∧ normChar (normChar c) = normChar c := by
  by_cases h1 : c = 0x622
  · subst h1; decide
  by_cases h2 : c = 0x623
  · subst h2; decide
  by_cases h3 : c = 0x624
  · subst h3; decide
  by_cases h4 : c = 0x625
  · subst h4; decide
  by_cases h5 : c = 0x626
  · subst h5; decide
  by_cases h6 : c = 0x629
  · subst h6; decide
  by_cases h7 : c = 0x671
  · subst h7; decide
  have hfix : normChar c = c := normChar_eq_of_ne c h1 h2 h3 h4 h5 h6 h7
  rw [hfix]
  exact ⟨hc, hfix⟩

/-- C3: the full normalization pipeline with all four steps enabled is
idempotent: normalizing twice equals normalizing once, for every input. -/
theorem claim_C3 (t : Str) :
    normalize_text (normalize_text t true true true true) true true true true
      = normalize_text t true true true true := by
  show normalizeDefault (normalizeDefault t) = normalizeDefault t
  rw [normalizeDefault_eq t, normalizeDefault_eq]
  have hmem : ∀ x ∈ (t.filter (fun c => decide (c ∉ ARABIC_DIACRITICS))).map normChar,
      x ∉ ARABIC_DIACRITICS ∧ normChar x = x := by
    intro x hx
    obtain ⟨c, hc, rfl⟩ := List.mem_map.mp hx
    have hcD : c ∉ ARABIC_DIACRITICS :=
      of_decide_eq_true (List.mem_filter.mp hc).2
    exact ⟨(normChar_fixed c hcD).1, (normChar_fixed c hcD).2⟩
  rw [List.filter_eq_self.mpr (fun x hx => decide_eq_true (hmem x hx).1)]
  exact map_fixed _ _ (fun x hx => (hmem x hx).2)

/-- Twice the number of ordered pairs is `n * (n - 1)`. -/
theorem two_mul_length_pairs (l : List α) :
    2 * (pairs l).length = l.length * (l.length - 1) := by
  induction l with
  | nil => simp [pairs]
  | cons x xs ih =>
    simp only [pairs, List.length_append, List.length_map, List.length_cons]
    calc 2 * (xs.length + (pairs xs).length)
        = 2 * xs.length + 2 * (pairs xs).length := by ring
      _ = 2 * xs.length + xs.length * (xs.length - 1) := by rw [ih]
      _ = (xs.length + 1) * (xs.length + 1 - 1) := by
          cases xs.length with
          | zero => simp
          | succ n => simp only [Nat.add_sub_cancel, Nat.succ_sub_one]; ring

/-- The number of ordered pairs is `n * (n - 1) / 2`. -/
theorem length_pairs (l : List α) :
    (pairs l).length = l.length * (l.length - 1) / 2 := by
  have h := two_mul_length_pairs l
  omega

/-- Both components of an emitted pair come from the list. -/
theorem mem_pairs (l : List α) (p : α × α) (hp : p ∈ pairs l) :
    p.1 ∈ l ∧ p.2 ∈ l := by
  induction l with
  | nil => simp [pairs] at hp
  | cons x xs ih =>
    simp only [pairs, List.mem_append, List.mem_map] at hp
    rcases hp with ⟨y, hy, rfl⟩ | hp
    · exact ⟨List.mem_cons_self x xs, List.mem_cons_of_mem x hy⟩
    · obtain ⟨h1, h2⟩ := ih hp
      exact ⟨List.mem_cons_of_mem x h1, List.mem_cons_of_mem x h2⟩

/-- Every emitted pair respects a pairwise relation of the list. -/
theorem pairs_rel (R : α → α → Prop) (l : List α) :
    l.Pairwise R → ∀ p ∈ pairs l, R p.1 p.2 := by
  induction l with
  | nil => intro _ p hp; simp [pairs] at hp
  | cons x xs ih =>
    intro h p hp
    obtain ⟨hx, hxs⟩ := List.pairwise_cons.mp h
    simp only [pairs, List.mem_append, List.mem_map] at hp
    rcases hp with ⟨y, hy, rfl⟩ | hp
    · exact hx y hy
    · exact ih hxs p hp

/-- On a duplicate-free list, the emitted pairs are pairwise distinct even
up to swapping the two components. -/
theorem pairs_pairwise_distinct (l : List α) (h : l.Nodup) :
    (pairs l).Pairwise
      (fun p q => ¬(p = q ∨ (p.1 = q.2 ∧ p.2 = q.1))) := by
  induction l with
  | nil => simp [pairs]
  | cons x xs ih =>
    rw [List.nodup_cons] at h
    obtain ⟨hx, hxs⟩ := h
    show ((xs.map (fun y => (x, y))) ++ pairs xs).Pairwise _
    rw [List.pairwise_append]
    refine ⟨?_, ih hxs, ?_⟩
    · rw [List.pairwise_map]
      refine List.Pairwise.imp_of_mem ?_ hxs
      intro a b ha hb hab hcon
      rcases hcon with heq | ⟨h1, h2⟩
      · exact hab (congrArg Prod.snd heq)
      · have h1' : x = b := h1
        exact hx (h1' ▸ hb)
    · intro a ha b hb
      rw [List.mem_map] at ha
      obtain ⟨y, hy, rfl⟩ := ha
      have hb12 := mem_pairs xs b hb
      intro hcon
      rcases hcon with heq | ⟨h1, h2⟩
      · rw [← heq] at hb12
        exact hx hb12.1
      · have h1' : x = b.2 := h1
        exact hx (h1' ▸ hb12.2)

/-- A truthy root is the word's own root and is non-empty. -/
theorem truthyRoot_some (w : Word) (r : Str) (h : truthyRoot w = some r) :
    w.root = some r ∧ r ≠ [] := by
  unfold truthyRoot at h
  split at h
  next r0 heq =>
    split at h
    next => exact absurd h (by simp)
    next h0 =>
      injection h with h
      subst h
      exact ⟨heq, h0⟩
  next => exact absurd h (by simp)

/-- Shape of `insertGroup`: every output entry is an untouched input
entry, the matching input entry with the word appended, or a fresh
singleton group for the key. -/
theorem insertGroup_shape (gs : List (Str × List Word)) (r : Str) (w : Word) :
    ∀ e ∈ insertGroup gs r w,
      e ∈ gs ∨ (∃ e0 ∈ gs, e0.1 = r ∧ e = (r, e0.2 ++ [w])) ∨ e = (r, [w]) := by
  induction gs with
  | nil =>
    intro e he
    simp only [insertGroup, List.mem_singleton] at he
    exact Or.inr (Or.inr he)
  | cons e1 rest ih =>
    intro e he
    simp only [insertGroup] at he
    by_cases h1 : e1.1 = r
    · rw [if_pos h1] at he
      rcases List.mem_cons.mp he with rfl | hrest
      · exact Or.inr (Or.inl ⟨e1, List.mem_cons_self e1 rest, h1, by rw [h1]⟩)
      · exact Or.inl (List.mem_cons_of_mem e1 hrest)
    · rw [if_neg h1] at he
      rcases List.mem_cons.mp he with rfl | hrest
      · exact Or.inl (List.mem_cons_self e rest)
      · rcases ih e hrest with h | ⟨e0, he0, hk, hh⟩ | hh
        · exact Or.inl (List.mem_cons_of_mem e1 h)
        · exact Or.inr (Or.inl ⟨e0, List.mem_cons_of_mem e1 he0, hk, hh⟩)
        · exact Or.inr (Or.inr hh)

/-- Loop invariant: every accumulated group is a sublist of the words
processed so far. -/
theorem rootGroups_foldl_sublist (ws : List Word) (gs : List (Str × List Word))
    (processed : List Word) (h : ∀ e ∈ gs, e.2.Sublist processed) :
    ∀ e ∈ ws.foldl groupStep gs, e.2.Sublist (processed ++ ws) := by
  induction ws generalizing gs processed with
  | nil =>
    intro e he
    simpa using h e he
  | cons w ws ih =>
    intro e he
    rw [List.foldl_cons] at he
    have hstep : ∀ e0 ∈ groupStep gs w, e0.2.Sublist (processed ++ [w]) := by
      intro e0 he0
      unfold groupStep at he0
      rcases htr : truthyRoot w with _ | r
      · rw [htr] at he0
        exact (h e0 he0).trans (List.sublist_append_left processed [w])
      · rw [htr] at he0
        rcases insertGroup_shape gs r w e0 he0 with h0 | ⟨e1, he1, _, rfl⟩ | rfl
        · exact (h e0 h0).trans (List.sublist_append_left processed [w])
        · exact List.Sublist.append (h e1 he1) (List.Sublist.refl [w])
        · have : ([] : List Word) ++ [w] = [w] := rfl
          rw [← this]
          exact List.Sublist.append (List.nil_sublist processed) (List.Sublist.refl [w])
    have hres := ih (groupStep gs w) (processed ++ [w]) hstep e he
    simpa using hres

/-- Loop invariant: every accumulated group has a non-empty key and all
its members carry exactly that root. -/
theorem rootGroups_foldl_roots (ws : List Word) (gs : List (Str × List Word))
    (h : ∀ e ∈ gs, e.1 ≠ [] ∧ ∀ w0 ∈ e.2, w0.root = some e.1) :
    ∀ e ∈ ws.foldl groupStep gs, e.1 ≠ [] ∧ ∀ w0 ∈ e.2, w0.root = some e.1 := by
  induction ws generalizing gs with
  | nil => exact h
  | cons w ws ih =>
    rw [List.foldl_cons]
    refine ih (groupStep gs w) ?_
    intro e he
    unfold groupStep at he
    rcases htr : truthyRoot w with _ | r
    · rw [htr] at he
      exact h e he
    · rw [htr] at he
      obtain ⟨hroot, hne⟩ := truthyRoot_some w r htr
      rcases insertGroup_shape gs r w e he with h0 | ⟨e1, he1, hk, rfl⟩ | rfl
      · exact h e h0
      · refine ⟨hne, ?_⟩
        intro w0 hw0
        rcases List.mem_append.mp hw0 with hw0 | hw0
        · have := (h e1 he1).2 w0 hw0
          rw [this, hk]
        · rw [List.mem_singleton.mp hw0]
          exact hroot
      · exact ⟨hne, fun w0 hw0 => by rw [List.mem_singleton.mp hw0]; exact hroot⟩

/-- C2 (amended: the input words pairwise distinct): the shared-root pass
appends, per root group of size n, exactly n·(n−1)/2 relations — one per
unordered pair, no self-pairs, no duplicate unordered pairs — each tagged
`shared_root` with the shared root in its metadata, all words of a group
sharing that same non-absent root. -/
theorem claim_C2 (words : List Word) (hnd : words.Nodup) :
    (build_root_relations [] words 1 =
      ((rootGroups words).map
        (fun rg => (pairs rg.2).map (sharedRootRel rg.1 1))).flatten) ∧
    ∀ rg ∈ rootGroups words,
      rg.1 ≠ [] ∧
      (∀ w ∈ rg.2, w.root = some rg.1) ∧
      ((pairs rg.2).map (sharedRootRel rg.1 1)).length
        = rg.2.length * (rg.2.length - 1) / 2 ∧
      (∀ rel ∈ (pairs rg.2).map (sharedRootRel rg.1 1),
        rel.relation_type = "shared_root" ∧ rel.weight = 1 ∧
        rel.metadata = some [("root", rg.1)] ∧ rel.word1 ≠ rel.word2) ∧
      ((pairs rg.2).map (sharedRootRel rg.1 1)).Pairwise
        (fun r1 r2 => ¬((r1.word1 = r2.word1 ∧ r1.word2 = r2.word2) ∨
          (r1.word1 = r2.word2 ∧ r1.word2 = r2.word1))) := by
  constructor
  · show [] ++ _ = _
    rw [List.nil_append]
  · intro rg hrg
    have hroots := rootGroups_foldl_roots words [] (by simp) rg hrg
    have hsub : rg.2.Sublist words := by
      have := rootGroups_foldl_sublist words [] [] (by simp) rg hrg
      simpa using this
    have hgnd : rg.2.Nodup := hnd.sublist hsub
    refine ⟨hroots.1, hroots.2, ?_, ?_, ?_⟩
    · rw [List.length_map, length_pairs]
    · intro rel hrel
      obtain ⟨p, hp, rfl⟩ := List.mem_map.mp hrel
      have hne : p.1 ≠ p.2 := pairs_rel (· ≠ ·) rg.2 hgnd p hp
      exact ⟨rfl, rfl, rfl, hne⟩
    · rw [List.pairwise_map]
      refine (pairs_pairwise_distinct rg.2 hgnd).imp ?_
      intro p q hpq hcon
      apply hpq
      rcases hcon with ⟨h1, h2⟩ | ⟨h1, h2⟩
      · exact Or.inl (Prod.ext h1 h2)
      · exact Or.inr ⟨h1, h2⟩

/-- C2 witness: three distinct words sharing root `ktb` produce exactly
three relations. -/
theorem claim_C2_witness :
    ((pairs [cwA, cwB, cwC]).map (sharedRootRel [107, 116, 98] 1)).length = 3 := by
  have h := claim_C2 [cwA, cwB, cwC] (by decide)
  have hrg : (([107, 116, 98] : Str), [cwA, cwB, cwC]) ∈ rootGroups [cwA, cwB, cwC] := by
    decide
  have h3 := (h.2 _ hrg).2.2.1
  exact h3.trans (by decide)

/-- C2 counterexample: with a duplicated input word the size-2 root group
emits one relation whose two members are the same word — a self-pair, so
the unrestricted claim fails. -/
theorem claim_C2_counterexample :
    build_root_relations [] [cwA, cwA] 1
      = [⟨cwA, cwA, "shared_root", 1, some [("root", [107, 116, 98])]⟩] ∧
    (⟨cwA, cwA, "shared_root", 1, some [("root", [107, 116, 98])]⟩ :
        WordRelation).word1
      = (⟨cwA, cwA, "shared_root", 1, some [("root", [107, 116, 98])]⟩ :
        WordRelation).word2 :=
  ⟨rfl, rfl⟩

/-- C1 counterexample: a concrete build that fails during word processing
(the lone token of `cexAyah` normalizes to the empty string, so `Word`
construction raises and the build wraps the error) nevertheless leaves
`_surahs` assigned, so the surah query on the post-build state succeeds
instead of failing with the 'not built' error: the corpus is not in its
pre-build state after this failed build. -/
theorem claim_C1_counterexample :
    (Corpus.build ⟨none, none⟩ (.ok [cexSurah])).2
      = some "Failed to build corpus: Normalized text cannot be empty" ∧
    (Corpus.build ⟨none, none⟩ (.ok [cexSurah])).1.surahs = some [cexSurah] ∧
    Corpus.surahsQ (Corpus.build ⟨none, none⟩ (.ok [cexSurah])).1
      = .ok [cexSurah] ∧
    (Corpus.build ⟨none, none⟩ (.ok [cexSurah])).1
      ≠ (⟨none, none⟩ : CorpusState) :=
  ⟨rfl, rfl, rfl, by decide⟩

/-- C1 (amended): a failed build never retains a partial word list —
`_words` is exactly as before the call, and on a previously unbuilt corpus
all word queries still fail with the 'not built' error; a failure during
loading leaves the whole state untouched; but a failure after loading
leaves `_surahs` assigned to the fully loaded surah tuple, so surah
queries succeed from then on. -/
theorem claim_C1_amended (st : CorpusState) (loadRes : Except String (List Surah))
    (st' : CorpusState) (err : String)
    (hfail : Corpus.build st loadRes = (st', some err)) :
    st'.words = st.words ∧
    (st.words = none → Corpus.wordsQ st' = .error notBuiltMsg ∧
      Corpus.filter_words st' = .error notBuiltMsg) ∧
    (∀ e, loadRes = .error e → st' = st) ∧
    (∀ ss, loadRes = .ok ss → st'.surahs = some ss) := by
  cases loadRes with
  | error e =>
    simp only [Corpus.build] at hfail
    injection hfail with ha hb
    subst ha
    refine ⟨rfl, ?_, fun e0 _ => rfl, ?_⟩
    · intro hw
      constructor <;> simp [Corpus.wordsQ, Corpus.filter_words, hw]
    · intro ss hss
      exact absurd hss (by simp)
  | ok ss =>
    simp only [Corpus.build] at hfail
    cases hp : Corpus.processAllAyahs ss with
    | error e2 =>
      rw [hp] at hfail
      injection hfail with ha hb
      subst ha
      refine ⟨rfl, ?_, ?_, ?_⟩
      · intro hw
        constructor <;> simp [Corpus.wordsQ, Corpus.filter_words, hw]
      · intro e0 he
        exact absurd he (by simp)
      · intro ss0 hss
        injection hss with hss
        subst hss
        rfl
    | ok ws =>
      rw [hp] at hfail
      injection hfail with ha hb
      exact absurd hb (by simp)

/-- C1 witness: instantiating the amended theorem at the concrete failing
build shows word queries still fail 'not built' while the surah tuple is
retained. -/
theorem claim_C1_witness :
    Corpus.wordsQ ⟨some [cexSurah], none⟩ = .error notBuiltMsg ∧
    (⟨some [cexSurah], none⟩ : CorpusState).surahs = some [cexSurah] :=
  ⟨((claim_C1_amended ⟨none, none⟩ (.ok [cexSurah]) ⟨some [cexSurah], none⟩ _
      rfl).2.1 rfl).1,
   (claim_C1_amended ⟨none, none⟩ (.ok [cexSurah]) ⟨some [cexSurah], none⟩ _
      rfl).2.2.2 [cexSurah] rfl⟩

end Quranalyze
